import Mathlib

/-!
Verification of the quick-check library (src/lazy.rs and src/qc.rs).

The development shallowly embeds the two source files:

* `QC.Lazy` models `Lazy<T>` of src/lazy.rs: a pair of the realized
  buffer `head` and the queue `thunks` of pending producers.  A pending
  producer in the source is a boxed `Thunk { value, f }` whose
  invocation receives `&mut Lazy<T>` and may only call `push`,
  `push_thunk` (and compositions of those) on it; since the captured
  state is owned by the thunk and fixed at creation time, the effect of
  invoking a thunk is a fixed finite tree of `push`/`push_thunk`
  operations.  We therefore embed a thunk as a term of the command
  language `QC.Cmd`: `push x` realizes a value, `pushThunk c` defers a
  further producer, `seq`/`skip` sequence the operations a thunk body
  performs.  `QC.runCmd` is the invocation (`Callable::call`).
* `QC.Lazy.next` is `Lazy::next` (src/lazy.rs lines 55-65): while the
  realized buffer is empty and producers are pending, pop the oldest
  producer and invoke it, then return the oldest realized element if
  any.  `QC.Lazy.drain` is the full consumption by repeated `next`, and
  `QC.Lazy.drainCount` counts how many thunk invocations that performs.
* `QC.QConfig` with the builder operations and the static default
  `QC.config` model src/qc.rs lines 50-77.
* `QC.quick_check`, `QC.quick_shrink` and `QC.quick_check_occurs`
  model src/qc.rs lines 101-152.  Randomness is made explicit: the
  drivers take a generator `arb : Nat → Nat → α` giving the value drawn
  at a trial index for a requested size, mirroring the ambient
  `arbitrary::<A>(size)` stream.  The shrink capability is passed as
  `shrink : α → List α`, the consumption order of the `Lazy` returned
  by `Shrink::shrink`.  `quick_shrink` recurses on a falsifying
  candidate, which is not structurally decreasing, so the embedding
  carries an explicit recursion-depth budget `fuel` and returns `none`
  when the budget is exhausted; the termination theorem shows a
  sufficient budget always exists when the shrink relation is
  well-founded.
-/

namespace QC

/-- Command language for thunk bodies of `Lazy<T>` (src/lazy.rs).
`push x` is `Lazy::push`, `pushThunk c` is `Lazy::push_thunk` of a
producer whose own body is `c`; `seq`/`skip` sequence the operations a
body performs on the `&mut Lazy<T>` it receives. -/
inductive Cmd (T : Type) : Type where
  | skip : Cmd T
  | push : T → Cmd T
  | pushThunk : Cmd T → Cmd T
  | seq : Cmd T → Cmd T → Cmd T

/-- The `Lazy<T>` struct of src/lazy.rs lines 20-23: the realized
buffer `head` and the pending producer queue `thunks`. -/
structure Lazy (T : Type) : Type where
  head : List T
  thunks : List (Cmd T)

/-- `Lazy::new` (src/lazy.rs line 41). -/
def Lazy.new {T : Type} : Lazy T := ⟨[], []⟩

/-- `Lazy::new_from` (src/lazy.rs line 45). -/
def Lazy.new_from {T : Type} (v : List T) : Lazy T := ⟨v, []⟩

/-- `Lazy::create` (src/lazy.rs line 49): run a builder on a fresh
empty sequence. -/
def Lazy.create {T : Type} (f : Lazy T → Lazy T) : Lazy T := f Lazy.new

/-- `Lazy::push` (src/lazy.rs line 68): append to the realized buffer. -/
def Lazy.push {T : Type} (L : Lazy T) (x : T) : Lazy T :=
  ⟨L.head ++ [x], L.thunks⟩

/-- `Lazy::push_thunk` (src/lazy.rs line 74): append a producer to the
end of the pending queue, ordered after all immediate push values. -/
def Lazy.push_thunk {T : Type} (L : Lazy T) (c : Cmd T) : Lazy T :=
  ⟨L.head, L.thunks ++ [c]⟩

/-- Invocation of a thunk body on its owning sequence
(`Callable::call` for `Thunk`, src/lazy.rs lines 34-38). -/
def runCmd {T : Type} : Cmd T → Lazy T → Lazy T
  | Cmd.skip, L => L
  | Cmd.push x, L => L.push x
  | Cmd.pushThunk c, L => L.push_thunk c
  | Cmd.seq a b, L => runCmd b (runCmd a L)

/-- Size of a thunk body, used as the termination measure of `next`:
each realized value and each deferred producer counts. -/
def cmdSize {T : Type} : Cmd T → Nat
  | Cmd.skip => 0
  | Cmd.push _ => 1
  | Cmd.pushThunk c => 1 + cmdSize c
  | Cmd.seq a b => cmdSize a + cmdSize b

/-- Measure of a pending queue: one per queued producer plus its size. -/
def queueSize {T : Type} : List (Cmd T) → Nat
  | [] => 0
  | c :: ts => (1 + cmdSize c) + queueSize ts

/-- Measure of a whole `Lazy` state. -/
def lazySize {T : Type} (L : Lazy T) : Nat :=
  L.head.length + queueSize L.thunks

theorem queueSize_append {T : Type} (a b : List (Cmd T)) :
    queueSize (a ++ b) = queueSize a + queueSize b := by
  induction a with
  | nil => simp [queueSize]
  | cons c a ih => simp [queueSize, ih]; omega

theorem lazySize_runCmd {T : Type} (c : Cmd T) (L : Lazy T) :
    lazySize (runCmd c L) = lazySize L + cmdSize c := by
  induction c generalizing L with
  | skip => simp [runCmd, cmdSize]
  | push x => simp [runCmd, Lazy.push, lazySize, cmdSize]; omega
  | pushThunk c => simp [runCmd, Lazy.push_thunk, lazySize, cmdSize, queueSize_append, queueSize]; omega
  | seq a b iha ihb => simp [runCmd, cmdSize, iha, ihb]; omega

theorem lazySize_tail_lt {T : Type} (x : T) (h : List T) (ts : List (Cmd T)) :
    lazySize ⟨h, ts⟩ < lazySize ⟨x :: h, ts⟩ := by
  simp [lazySize]

theorem lazySize_run_lt {T : Type} (c : Cmd T) (ts : List (Cmd T)) :
    lazySize (runCmd c ⟨[], ts⟩) < lazySize ⟨[], c :: ts⟩ := by
  rw [lazySize_runCmd]
  simp [lazySize, queueSize]
  omega

/-- `Lazy::next` (src/lazy.rs lines 55-65): while the realized buffer
is empty and producers are pending, remove the oldest pending producer
and invoke it on the sequence with that producer already removed; then
return the oldest realized element if one exists, and the drained state
otherwise. -/
def Lazy.next {T : Type} : Lazy T → Option T × Lazy T
  | ⟨x :: h, ts⟩ => (some x, ⟨h, ts⟩)
  | ⟨[], []⟩ => (none, ⟨[], []⟩)
  | ⟨[], c :: ts⟩ => Lazy.next (runCmd c ⟨[], ts⟩)
termination_by L => lazySize L
decreasing_by
  all_goals first
    | exact lazySize_tail_lt _ _ _
    | exact lazySize_run_lt _ _

/-- Full consumption of a `Lazy` by repeated `next` calls, in order. -/
def Lazy.drain {T : Type} : Lazy T → List T
  | ⟨x :: h, ts⟩ => x :: Lazy.drain ⟨h, ts⟩
  | ⟨[], []⟩ => []
  | ⟨[], c :: ts⟩ => Lazy.drain (runCmd c ⟨[], ts⟩)
termination_by L => lazySize L
decreasing_by
  all_goals first
    | exact lazySize_tail_lt _ _ _
    | exact lazySize_run_lt _ _

/-- Number of thunk invocations performed while fully consuming a
`Lazy` by repeated `next` calls. -/
def Lazy.drainCount {T : Type} : Lazy T → Nat
  | ⟨_ :: h, ts⟩ => Lazy.drainCount ⟨h, ts⟩
  | ⟨[], []⟩ => 0
  | ⟨[], c :: ts⟩ => 1 + Lazy.drainCount (runCmd c ⟨[], ts⟩)
termination_by L => lazySize L
decreasing_by
  all_goals first
    | exact lazySize_tail_lt _ _ _
    | exact lazySize_run_lt _ _

theorem next_cons {T : Type} (x : T) (h : List T) (ts : List (Cmd T)) :
    Lazy.next ⟨x :: h, ts⟩ = (some x, (⟨h, ts⟩ : Lazy T)) := by
  simp [Lazy.next]

theorem next_empty {T : Type} :
    Lazy.next (⟨[], []⟩ : Lazy T) = (none, (⟨[], []⟩ : Lazy T)) := by
  simp [Lazy.next]

theorem next_thunk {T : Type} (c : Cmd T) (ts : List (Cmd T)) :
    Lazy.next ⟨[], c :: ts⟩ = Lazy.next (runCmd c ⟨[], ts⟩) := by
  simp [Lazy.next]

theorem drain_cons {T : Type} (x : T) (h : List T) (ts : List (Cmd T)) :
    Lazy.drain ⟨x :: h, ts⟩ = x :: Lazy.drain ⟨h, ts⟩ := by
  simp [Lazy.drain]

theorem drain_empty {T : Type} : Lazy.drain (⟨[], []⟩ : Lazy T) = [] := by
  simp [Lazy.drain]

theorem drain_thunk {T : Type} (c : Cmd T) (ts : List (Cmd T)) :
    Lazy.drain ⟨[], c :: ts⟩ = Lazy.drain (runCmd c ⟨[], ts⟩) := by
  simp [Lazy.drain]

theorem drainCount_cons {T : Type} (x : T) (h : List T) (ts : List (Cmd T)) :
    Lazy.drainCount ⟨x :: h, ts⟩ = Lazy.drainCount ⟨h, ts⟩ := by
  simp [Lazy.drainCount]

theorem drainCount_empty {T : Type} : Lazy.drainCount (⟨[], []⟩ : Lazy T) = 0 := by
  simp [Lazy.drainCount]

theorem drainCount_thunk {T : Type} (c : Cmd T) (ts : List (Cmd T)) :
    Lazy.drainCount ⟨[], c :: ts⟩ = 1 + Lazy.drainCount (runCmd c ⟨[], ts⟩) := by
  simp [Lazy.drainCount]

/-- All values a thunk body will ever realize, directly or through the
producers it defers. -/
def cmdVals {T : Type} : Cmd T → List T
  | Cmd.skip => []
  | Cmd.push x => [x]
  | Cmd.pushThunk c => cmdVals c
  | Cmd.seq a b => cmdVals a ++ cmdVals b

/-- All values a pending queue will ever realize, in thunk-push order. -/
def queueVals {T : Type} : List (Cmd T) → List T
  | [] => []
  | c :: ts => cmdVals c ++ queueVals ts

theorem queueVals_append {T : Type} (a b : List (Cmd T)) :
    queueVals (a ++ b) = queueVals a ++ queueVals b := by
  induction a with
  | nil => simp [queueVals]
  | cons c a ih => simp [queueVals, ih]

theorem runCmd_perm {T : Type} (c : Cmd T) (L : Lazy T) :
    ((runCmd c L).head ++ queueVals (runCmd c L).thunks).Perm
      (L.head ++ queueVals L.thunks ++ cmdVals c) := by
  induction c generalizing L with
  | skip => simp [runCmd, cmdVals]
  | push x =>
    simp only [runCmd, Lazy.push, cmdVals, List.append_assoc]
    exact List.Perm.append_left L.head List.perm_append_comm
  | pushThunk c =>
    simp [runCmd, Lazy.push_thunk, cmdVals, queueVals_append, queueVals]
  | seq a b iha ihb =>
    simp only [runCmd, cmdVals]
    have h2 := (ihb (runCmd a L)).trans (List.Perm.append_right (cmdVals b) (iha L))
    simpa only [List.append_assoc] using h2

/-- Fully consuming a `Lazy` returns exactly the values it will ever
realize: the realized buffer plus everything every pending thunk will
ever push, each occurrence exactly once. -/
theorem drain_perm {T : Type} (L : Lazy T) :
    (Lazy.drain L).Perm (L.head ++ queueVals L.thunks) := by
  induction L using Lazy.drain.induct with
  | case1 x h ts ih =>
    rw [drain_cons]
    exact List.Perm.cons x ih
  | case2 => simp [drain_empty, queueVals]
  | case3 c ts ih =>
    rw [drain_thunk]
    refine (ih.trans ((runCmd_perm c ⟨[], ts⟩).trans ?_))
    simp only [List.nil_append, queueVals]
    exact List.perm_append_comm

/-- Immediately realized values are consumed first, in push order,
before anything any pending thunk produces. -/
theorem drain_append {T : Type} (h : List T) (ts : List (Cmd T)) :
    Lazy.drain ⟨h, ts⟩ = h ++ Lazy.drain ⟨[], ts⟩ := by
  induction h with
  | nil => simp
  | cons x h ih => rw [drain_cons, ih]; rfl

/-- Number of deferred producers a thunk body will ever queue. -/
def cmdNodes {T : Type} : Cmd T → Nat
  | Cmd.skip => 0
  | Cmd.push _ => 0
  | Cmd.pushThunk c => 1 + cmdNodes c
  | Cmd.seq a b => cmdNodes a + cmdNodes b

/-- Number of thunks a pending queue will ever run: the queued ones plus
every producer they (recursively) defer. -/
def queueNodes {T : Type} : List (Cmd T) → Nat
  | [] => 0
  | c :: ts => (1 + cmdNodes c) + queueNodes ts

theorem queueNodes_append {T : Type} (a b : List (Cmd T)) :
    queueNodes (a ++ b) = queueNodes a + queueNodes b := by
  induction a with
  | nil => simp [queueNodes]
  | cons c a ih => simp [queueNodes, ih]; omega

theorem runCmd_nodes {T : Type} (c : Cmd T) (L : Lazy T) :
    queueNodes (runCmd c L).thunks = queueNodes L.thunks + cmdNodes c := by
  induction c generalizing L with
  | skip => simp [runCmd, cmdNodes]
  | push x => simp [runCmd, Lazy.push, cmdNodes]
  | pushThunk c => simp only [runCmd, Lazy.push_thunk, cmdNodes, queueNodes_append, queueNodes]; omega
  | seq a b iha ihb => simp only [runCmd, cmdNodes, iha, ihb]; omega

/-- Fully consuming a `Lazy` invokes each thunk that is ever queued
exactly once: the invocation count equals the number of initially
pending producers plus all producers those (recursively) defer. -/
theorem drainCount_eq {T : Type} (L : Lazy T) :
    Lazy.drainCount L = queueNodes L.thunks := by
  induction L using Lazy.drainCount.induct with
  | case1 x h ts ih => rw [drainCount_cons, ih]
  | case2 => simp [drainCount_empty, queueNodes]
  | case3 c ts ih =>
    rw [drainCount_thunk, ih, runCmd_nodes]
    simp only [queueNodes]
    omega

/-- A thunk body containing no deferred producer realizes exactly its
pushed values, appended in order to the realized buffer. -/
theorem runCmd_flat {T : Type} (c : Cmd T) (L : Lazy T) (hc : cmdNodes c = 0) :
    runCmd c L = ⟨L.head ++ cmdVals c, L.thunks⟩ := by
  induction c generalizing L with
  | skip => simp [runCmd, cmdVals]
  | push x => simp [runCmd, Lazy.push, cmdVals]
  | pushThunk c => simp [cmdNodes] at hc
  | seq a b iha ihb =>
    simp [cmdNodes] at hc
    simp [runCmd, cmdVals, iha _ hc.1, ihb _ hc.2]

/-- Body of the single thunk installed by `Lazy::push_map`
(src/lazy.rs lines 81-92) for a source iterator whose remaining
elements are the given list: when invoked it pulls exactly one source
element; if present it pushes the transformed value and re-installs the
continuation for the remainder, else it installs nothing. -/
def pushMapCmd {A T : Type} (f : A → T) : List A → Cmd T
  | [] => Cmd.skip
  | x :: xs => Cmd.seq (Cmd.push (f x)) (Cmd.pushThunk (pushMapCmd f xs))

/-- `Lazy::push_map` (src/lazy.rs lines 81-92): push a single thunk
that lazily maps `f` over the source iterator. -/
def Lazy.push_map {A T : Type} (L : Lazy T) (it : List A) (f : A → T) : Lazy T :=
  L.push_thunk (pushMapCmd f it)

theorem drain_push_map {A T : Type} (f : A → T) (xs : List A) :
    Lazy.drain (Lazy.push_map Lazy.new xs f) = xs.map f := by
  induction xs with
  | nil =>
    simp [Lazy.push_map, Lazy.new, Lazy.push_thunk, pushMapCmd]
    rw [drain_thunk]
    simp [runCmd, drain_empty]
  | cons x xs ih =>
    simp only [Lazy.push_map, Lazy.new, Lazy.push_thunk, pushMapCmd, List.nil_append] at ih ⊢
    rw [drain_thunk]
    simp only [runCmd, Lazy.push, Lazy.push_thunk, List.nil_append]
    rw [drain_cons, ih]
    simp

/-- The `QConfig` struct of src/qc.rs lines 50-55. -/
structure QConfig : Type where
  trials : Nat
  size : Nat
  verbose : Bool
  grow : Bool

/-- The static default configuration `config` (src/qc.rs line 58):
`trials = 50, size = 8, verbose = false, grow = true`. -/
def config : QConfig := ⟨50, 8, false, true⟩

/-- Builder `QConfig::size` (src/qc.rs line 62); named `withSize` here
because the record field already takes the source name. -/
def QConfig.withSize (c : QConfig) (x : Nat) : QConfig :=
  { c with size := x }

/-- Builder `QConfig::trials` (src/qc.rs line 66). -/
def QConfig.withTrials (c : QConfig) (x : Nat) : QConfig :=
  { c with trials := x }

/-- Builder `QConfig::grow` (src/qc.rs line 70). -/
def QConfig.withGrow (c : QConfig) (x : Bool) : QConfig :=
  { c with grow := x }

/-- Builder `QConfig::verbose` (src/qc.rs line 74). -/
def QConfig.withVerbose (c : QConfig) (x : Bool) : QConfig :=
  { c with verbose := x }

/-- The size passed to `arbitrary` at trial index `i`:
`cfg.size + if cfg.grow { i / 8 } else { 0 }`
(src/qc.rs line 103 in `quick_check` and line 141 in
`quick_check_occurs`). -/
def effSize (cfg : QConfig) (i : Nat) : Nat :=
  cfg.size + if cfg.grow then i / 8 else 0

/-- The candidate loop inside `quick_shrink` (src/qc.rs lines 124-129):
pull candidates one at a time, in sequence order, and return the first
one on which the property is false, or nothing if the sequence is
exhausted without one. -/
def shrink_loop {α : Type} (prop : α → Bool) : List α → Option α
  | [] => none
  | elt :: rest => if prop elt then shrink_loop prop rest else some elt

/-- `quick_shrink` (src/qc.rs lines 121-135).  `shrink` is the shrink
capability (the consumption order of the `Lazy` that `Shrink::shrink`
returns); `fuel` bounds the recursion depth, which Rust leaves to the
well-foundedness of the shrink relation, and `none` means the budget
was exhausted. -/
def quick_shrink {α : Type} (cfg : QConfig) (shrink : α → List α)
    (prop : α → Bool) : Nat → α → Option α
  | 0, _ => none
  | fuel + 1, value =>
    match shrink_loop prop (shrink value) with
    | some elt => quick_shrink cfg shrink prop fuel elt
    | none => some value

/-- Outcome of `quick_check`: either all trials passed, or the property
was falsified after the reported number of trials and minimized to the
reported counterexample (src/qc.rs lines 108-118). -/
inductive QCResult (α : Type) : Type where
  | passed : QCResult α
  | falsified : Nat → Option α → QCResult α

/-- The trial loop of `quick_check` (src/qc.rs lines 102-115): at trial
`i`, draw `arb i (effSize cfg i)`, and on the first falsification
minimize the retained duplicate with `quick_shrink` and stop with
`1 + i` trials reported; `rem` is the number of trials left to run. -/
def qc_loop {α : Type} (cfg : QConfig) (arb : Nat → Nat → α)
    (shrink : α → List α) (prop : α → Bool) (sfuel : Nat) :
    Nat → Nat → QCResult α
  | _, 0 => QCResult.passed
  | i, rem + 1 =>
    let value := arb i (effSize cfg i)
    if prop value then qc_loop cfg arb shrink prop sfuel (i + 1) rem
    else QCResult.falsified (1 + i) (quick_shrink cfg shrink prop sfuel value)

/-- `quick_check` (src/qc.rs lines 101-119): run `cfg.trials` trials
starting from trial index 0. -/
def quick_check {α : Type} (cfg : QConfig) (arb : Nat → Nat → α)
    (shrink : α → List α) (prop : α → Bool) (sfuel : Nat) : QCResult α :=
  qc_loop cfg arb shrink prop sfuel 0 cfg.trials

/-- Outcome of `quick_check_occurs`: either the run completes without a
fatal report, or it ends with the fatal "could not reproduce" failure
(src/qc.rs lines 149-151). -/
inductive OccursResult : Type where
  | occurred : OccursResult
  | failed : OccursResult
deriving DecidableEq

/-- The trial loop of `quick_check_occurs` (src/qc.rs lines 138-148):
`n` counts attempted trials; the loop stops early on the first trial
whose generated value satisfies the property, returning the final value
of `n`. -/
def qco_loop {α : Type} (cfg : QConfig) (arb : Nat → Nat → α)
    (prop : α → Bool) : Nat → Nat → Nat → Nat
  | _, 0, n => n
  | i, rem + 1, n =>
    if prop (arb i (effSize cfg i)) then n + 1
    else qco_loop cfg arb prop (i + 1) rem (n + 1)

/-- `quick_check_occurs` (src/qc.rs lines 137-152): run the counting
loop over `cfg.trials` trials, then fail exactly when `n >= cfg.trials`
(src/qc.rs line 149). -/
def quick_check_occurs {α : Type} (cfg : QConfig) (arb : Nat → Nat → α)
    (prop : α → Bool) : OccursResult :=
  if cfg.trials ≤ qco_loop cfg arb prop 0 cfg.trials 0 then OccursResult.failed
  else OccursResult.occurred

theorem shrink_loop_mem {α : Type} (prop : α → Bool) (l : List α) (c : α)
    (h : shrink_loop prop l = some c) : c ∈ l := by
  induction l with
  | nil => simp [shrink_loop] at h
  | cons elt rest ih =>
    by_cases hp : prop elt
    · simp [shrink_loop, hp] at h
      exact List.mem_cons_of_mem elt (ih h)
    · simp [shrink_loop, hp] at h
      simp [h]

theorem shrink_loop_all_true {α : Type} (prop : α → Bool) (l : List α)
    (h : ∀ c ∈ l, prop c = true) : shrink_loop prop l = none := by
  induction l with
  | nil => rfl
  | cons elt rest ih =>
    have he : prop elt = true := h elt (List.mem_cons_self elt rest)
    simp [shrink_loop, he]
    exact ih fun c hc => h c (List.mem_cons_of_mem elt hc)

theorem shrink_loop_first {α : Type} (prop : α → Bool) (pre : List α)
    (c : α) (rest : List α) (hpre : ∀ p ∈ pre, prop p = true)
    (hc : prop c = false) : shrink_loop prop (pre ++ c :: rest) = some c := by
  induction pre with
  | nil => simp [shrink_loop, hc]
  | cons p pre ih =>
    have hp : prop p = true := hpre p (List.mem_cons_self p pre)
    simp only [List.cons_append, shrink_loop, hp, if_true]
    exact ih fun q hq => hpre q (List.mem_cons_of_mem p hq)

theorem shrink_loop_congr {α : Type} (p q : α → Bool) (l : List α)
    (h : ∀ c ∈ l, p c = q c) : shrink_loop p l = shrink_loop q l := by
  induction l with
  | nil => rfl
  | cons e rest ih =>
    have he := h e (List.mem_cons_self e rest)
    have ht := ih fun c hc => h c (List.mem_cons_of_mem e hc)
    simp only [shrink_loop, he, ht]

end QC

/-- Generator fixture: the value 0 at every trial and size. -/
def arbZero : Nat → Nat → Nat := fun _ _ => 0

/-- Shrink fixture: no candidates for any value. -/
def noShrink : Nat → List Nat := fun _ => []

/-- Property fixture: true on every value. -/
def propTrue : Nat → Bool := fun _ => true

/-- Property fixture: false on every value. -/
def propFalse : Nat → Bool := fun _ => false

/-- Shrink fixture: the value 10 shrinks to the candidates 5 then 3. -/
def shrinkTen : Nat → List Nat := fun n => if n = 10 then [5, 3] else []

/-- Property fixture: true exactly on values at least 4. -/
def propGe4 : Nat → Bool := fun n => decide (4 ≤ n)

/-- C1: the claim says `quick_check_occurs` raises the fatal "no
witness found" failure if and only if all `config.trials` trials are
exhausted without the property ever returning true.  The code
(src/qc.rs lines 149-151) instead fails whenever `n >= cfg.trials`,
where `n` counts attempted trials, so a witness found on the final
trial still ends in the fatal outcome.  This theorem evaluates the
embedding at the failing input: `trials = 1` and a property returning
true on every value; the property returns true on the generated value
of the one trial, yet the driver reports the fatal failure. -/
theorem claim_C1 :
    propTrue (arbZero 0 (QC.effSize (QC.config.withTrials 1) 0)) = true
    ∧ QC.quick_check_occurs (QC.config.withTrials 1) arbZero propTrue =
        QC.OccursResult.failed :=
  ⟨rfl, rfl⟩

/-- C2: `quick_shrink` pulls candidates from `shrink value` one at a
time in sequence order; if the sequence is exhausted with every
candidate satisfying the property, it returns `value` unchanged, and on
the first candidate falsifying the property it recurses on that
candidate and returns that result immediately, examining no further
candidates at the current level. -/
theorem claim_C2 {α : Type} (cfg : QC.QConfig) (shrink : α → List α)
    (prop : α → Bool) (fuel : Nat) (value : α) :
    ((∀ c ∈ shrink value, prop c = true) →
      QC.quick_shrink cfg shrink prop (fuel + 1) value = some value)
    ∧ (∀ pre c rest, shrink value = pre ++ c :: rest →
        (∀ p ∈ pre, prop p = true) → prop c = false →
        QC.quick_shrink cfg shrink prop (fuel + 1) value =
          QC.quick_shrink cfg shrink prop fuel c) := by
  constructor
  · intro hall
    simp [QC.quick_shrink, QC.shrink_loop_all_true prop (shrink value) hall]
  · intro pre c rest hsv hpre hc
    simp [QC.quick_shrink, hsv, QC.shrink_loop_first prop pre c rest hpre hc]

/-- C2 witness: the value 10 shrinks to candidates 5 then 3 under
`shrinkTen`; the property holds on 5 and fails on 3, and `quick_shrink`
recurses on 3. -/
theorem claim_C2_witness :
    shrinkTen 10 = [5] ++ 3 :: []
    ∧ (∀ p ∈ [5], propGe4 p = true) ∧ propGe4 3 = false
    ∧ QC.quick_shrink QC.config shrinkTen propGe4 2 10 =
        QC.quick_shrink QC.config shrinkTen propGe4 1 3 :=
  ⟨by decide, by decide, by decide,
   (claim_C2 QC.config shrinkTen propGe4 1 10).2 [5] 3 [] (by decide)
     (by decide) (by decide)⟩

/-- C3: `next` returns the oldest realized element when one exists,
returns "no more elements" on the fully drained state (which is left
unchanged, so every subsequent call also returns "no more elements"),
and otherwise removes the oldest pending thunk and invokes it; full
consumption returns the immediately pushed values first, in push order,
followed by the values of the previously queued thunks, and returns
exactly the values ever realized, each occurrence exactly once; a thunk
that defers no further producer contributes its values in thunk-push
order. -/
theorem claim_C3 {T : Type} (x : T) (h : List T) (c : QC.Cmd T)
    (ts : List (QC.Cmd T)) (L : QC.Lazy T) :
    QC.Lazy.next ⟨x :: h, ts⟩ = (some x, (⟨h, ts⟩ : QC.Lazy T))
    ∧ QC.Lazy.next (⟨[], []⟩ : QC.Lazy T) = (none, (⟨[], []⟩ : QC.Lazy T))
    ∧ QC.Lazy.next ⟨[], c :: ts⟩ = QC.Lazy.next (QC.runCmd c ⟨[], ts⟩)
    ∧ QC.Lazy.drain ⟨h, ts⟩ = h ++ QC.Lazy.drain ⟨[], ts⟩
    ∧ (QC.Lazy.drain L).Perm (L.head ++ QC.queueVals L.thunks)
    ∧ (QC.cmdNodes c = 0 →
        QC.Lazy.drain ⟨[], c :: ts⟩ =
          QC.cmdVals c ++ QC.Lazy.drain ⟨[], ts⟩) := by
  refine ⟨QC.next_cons x h ts, QC.next_empty, QC.next_thunk c ts,
    QC.drain_append h ts, QC.drain_perm L, ?_⟩
  intro hc
  rw [QC.drain_thunk, QC.runCmd_flat c _ hc]
  simp only [List.nil_append]
  exact QC.drain_append _ ts

/-- C3 witness: a queue of two flat thunks pushing 7 and 9; the first
thunk defers nothing, so its value comes first. -/
theorem claim_C3_witness :
    QC.cmdNodes (QC.Cmd.push (7 : Nat)) = 0
    ∧ QC.Lazy.drain ⟨[], [QC.Cmd.push (7 : Nat), QC.Cmd.push 9]⟩ =
        QC.cmdVals (QC.Cmd.push (7 : Nat)) ++
          QC.Lazy.drain ⟨[], [QC.Cmd.push 9]⟩ :=
  ⟨rfl,
   (claim_C3 0 [] (QC.Cmd.push 7) [QC.Cmd.push 9] QC.Lazy.new).2.2.2.2.2 rfl⟩

/-- C4: consuming a fresh `Lazy` after `push_map source f` yields
exactly the eager map of `f` over the source, in source order, then
end; each invocation of the installed thunk pulls exactly one source
element, pushes its image and re-installs the continuation for the
remainder, and the thunk for an exhausted source installs nothing; in
particular, source `[3, 4, 5]` with `x -> (x, 1)` yields
`(3,1), (4,1), (5,1)` then end. -/
theorem claim_C4 {A T : Type} (f : A → T) (xs : List A) (x : A)
    (L : QC.Lazy T) :
    QC.Lazy.drain (QC.Lazy.push_map QC.Lazy.new xs f) = xs.map f
    ∧ QC.runCmd (QC.pushMapCmd f (x :: xs)) L =
        QC.Lazy.push_thunk (QC.Lazy.push L (f x)) (QC.pushMapCmd f xs)
    ∧ QC.runCmd (QC.pushMapCmd f []) L = L
    ∧ QC.Lazy.drain
        (QC.Lazy.push_map QC.Lazy.new [3, 4, 5] (fun n : Nat => (n, 1))) =
        [(3, 1), (4, 1), (5, 1)] := by
  refine ⟨QC.drain_push_map f xs, rfl, rfl, ?_⟩
  rw [QC.drain_push_map]
  rfl

/-- C5: at trial index `i`, both drivers hand value generation the size
`effSize cfg i`, which equals `cfg.size + i / 8` when `cfg.grow` is
true (so it grows by one every 8 trials) and exactly `cfg.size` when
`cfg.grow` is false; the last two conjuncts exhibit the generation call
`arb i (effSize cfg i)` performed by one iteration of the `quick_check`
and `quick_check_occurs` trial loops. -/
theorem claim_C5 {α : Type} (cfg : QC.QConfig) (arb : Nat → Nat → α)
    (shrink : α → List α) (prop : α → Bool) (sfuel i rem n : Nat) :
    (cfg.grow = true → QC.effSize cfg i = cfg.size + i / 8)
    ∧ (cfg.grow = false → QC.effSize cfg i = cfg.size)
    ∧ (cfg.grow = true → QC.effSize cfg (i + 8) = QC.effSize cfg i + 1)
    ∧ QC.qc_loop cfg arb shrink prop sfuel i (rem + 1) =
        (if prop (arb i (QC.effSize cfg i)) then
          QC.qc_loop cfg arb shrink prop sfuel (i + 1) rem
         else QC.QCResult.falsified (1 + i)
          (QC.quick_shrink cfg shrink prop sfuel (arb i (QC.effSize cfg i))))
    ∧ QC.qco_loop cfg arb prop i (rem + 1) n =
        (if prop (arb i (QC.effSize cfg i)) then n + 1
         else QC.qco_loop cfg arb prop (i + 1) rem (n + 1)) := by
  refine ⟨?_, ?_, ?_, rfl, rfl⟩
  · intro hg; simp [QC.effSize, hg]
  · intro hg; simp [QC.effSize, hg]
  · intro hg
    simp only [QC.effSize, hg, if_true]
    omega

/-- C5 witness: with the default configuration (grow on) trial 9 uses
size `8 + 9 / 8`; with grow switched off it uses size 8. -/
theorem claim_C5_witness :
    QC.effSize QC.config 9 = 8 + 9 / 8
    ∧ QC.effSize (QC.config.withGrow false) 9 = 8 :=
  ⟨(@claim_C5 Nat QC.config arbZero noShrink propTrue 0 9 0 0).1 rfl,
   (@claim_C5 Nat (QC.config.withGrow false) arbZero noShrink propTrue
      0 9 0 0).2.1 rfl⟩

/-- C6: `quick_check` with `trials = 0` runs zero trials and reports
success for every property and generator (the property is universally
quantified, so it is never consulted); the degenerate configuration is
not an error. -/
theorem claim_C6 {α : Type} (cfg : QC.QConfig) (arb : Nat → Nat → α)
    (shrink : α → List α) (prop : α → Bool) (sfuel : Nat)
    (h : cfg.trials = 0) :
    QC.quick_check cfg arb shrink prop sfuel = QC.QCResult.passed := by
  unfold QC.quick_check
  rw [h]
  rfl

/-- C6 witness: the builder-produced configuration with zero trials
passes even on the always-false property. -/
theorem claim_C6_witness :
    (QC.config.withTrials 0).trials = 0
    ∧ QC.quick_check (QC.config.withTrials 0) arbZero noShrink propFalse 0 =
        QC.QCResult.passed :=
  ⟨rfl, claim_C6 (QC.config.withTrials 0) arbZero noShrink propFalse 0 rfl⟩

/-- C7: a thunk consumed from the pending queue is removed before being
invoked: the state its body runs on no longer contains it; and during a
full consumption the number of thunk invocations equals the number of
thunks ever queued (the initially pending ones plus every producer they
recursively defer), so no thunk is ever executed more than once. -/
theorem claim_C7 {T : Type} (h : List T) (c : QC.Cmd T)
    (ts : List (QC.Cmd T)) :
    QC.Lazy.next ⟨[], c :: ts⟩ = QC.Lazy.next (QC.runCmd c ⟨[], ts⟩)
    ∧ QC.Lazy.drainCount ⟨[], c :: ts⟩ =
        1 + QC.Lazy.drainCount (QC.runCmd c ⟨[], ts⟩)
    ∧ QC.Lazy.drainCount ⟨h, ts⟩ = QC.queueNodes ts :=
  ⟨QC.next_thunk c ts, QC.drainCount_thunk c ts, QC.drainCount_eq ⟨h, ts⟩⟩

/-- C8: when the shrink-candidate relation is well-founded (no infinite
strictly-decreasing chain of candidates; the candidate sequence of each
value is a `List`, hence finite), `quick_shrink` terminates: some
finite recursion budget suffices for every input value and property. -/
theorem claim_C8 {α : Type} (cfg : QC.QConfig) (shrink : α → List α)
    (prop : α → Bool) (hwf : WellFounded fun c v => c ∈ shrink v)
    (value : α) :
    ∃ fuel, (QC.quick_shrink cfg shrink prop fuel value).isSome = true := by
  refine @WellFounded.induction α (fun c v => c ∈ shrink v) hwf
    (fun v => ∃ fuel, (QC.quick_shrink cfg shrink prop fuel v).isSome = true)
    value ?_
  intro v ih
  cases hsl : QC.shrink_loop prop (shrink v) with
  | none => exact ⟨1, by simp [QC.quick_shrink, hsl]⟩
  | some c =>
    obtain ⟨fuel, hf⟩ := ih c (QC.shrink_loop_mem prop (shrink v) c hsl)
    exact ⟨fuel + 1, by simp [QC.quick_shrink, hsl, hf]⟩

/-- C8 witness: the empty shrink relation is well-founded, and a budget
exists for shrinking the value 0. -/
theorem claim_C8_witness :
    ∃ fuel, (QC.quick_shrink QC.config noShrink propTrue fuel 0).isSome = true :=
  claim_C8 QC.config noShrink propTrue
    (WellFounded.intro fun a => Acc.intro a fun y hy =>
      absurd hy (by simp [noShrink])) 0

/-- C9: each builder operation returns a new configuration changing
only the named field and keeping every other field, and the statically
available default has `trials = 50, size = 8, verbose = false,
grow = true`; configurations are immutable values, so the configuration
a builder is applied to (the default included) is never mutated. -/
theorem claim_C9 (c : QC.QConfig) (n m : Nat) (b v : Bool) :
    (c.withTrials n).trials = n ∧ (c.withTrials n).size = c.size
    ∧ (c.withTrials n).verbose = c.verbose ∧ (c.withTrials n).grow = c.grow
    ∧ (c.withSize m).size = m ∧ (c.withSize m).trials = c.trials
    ∧ (c.withSize m).verbose = c.verbose ∧ (c.withSize m).grow = c.grow
    ∧ (c.withVerbose b).verbose = b ∧ (c.withVerbose b).trials = c.trials
    ∧ (c.withVerbose b).size = c.size ∧ (c.withVerbose b).grow = c.grow
    ∧ (c.withGrow v).grow = v ∧ (c.withGrow v).trials = c.trials
    ∧ (c.withGrow v).size = c.size ∧ (c.withGrow v).verbose = c.verbose
    ∧ QC.config.trials = 50 ∧ QC.config.size = 8
    ∧ QC.config.verbose = false ∧ QC.config.grow = true :=
  ⟨rfl, rfl, rfl, rfl, rfl, rfl, rfl, rfl, rfl, rfl, rfl, rfl, rfl, rfl,
   rfl, rfl, rfl, rfl, rfl, rfl⟩

/-- C10: `quick_shrink` evaluates the property only on candidates drawn
from the input's shrink sequence, never on the input itself: the
candidate loop's outcome depends only on the property's values on the
candidates (first conjunct), and whenever every candidate satisfies the
property the input is returned unchanged, with no assumption at all on
the property's value at the input (second conjunct) — in particular for
the always-true property, where the input does not falsify the property
(third conjunct). -/
theorem claim_C10 {α : Type} (cfg : QC.QConfig) (shrink : α → List α)
    (prop : α → Bool) (fuel : Nat) (value : α) :
    (∀ p q : α → Bool, (∀ c ∈ shrink value, p c = q c) →
      QC.shrink_loop p (shrink value) = QC.shrink_loop q (shrink value))
    ∧ ((∀ c ∈ shrink value, prop c = true) →
        QC.quick_shrink cfg shrink prop (fuel + 1) value = some value)
    ∧ QC.quick_shrink cfg shrink (fun _ => true) (fuel + 1) value =
        some value := by
  refine ⟨fun p q h => QC.shrink_loop_congr p q (shrink value) h, ?_, ?_⟩
  · intro hall
    simp [QC.quick_shrink, QC.shrink_loop_all_true prop (shrink value) hall]
  · simp [QC.quick_shrink,
      QC.shrink_loop_all_true (fun _ => true) (shrink value) fun _ _ => rfl]

/-- C10 witness: the always-true property is true on the input 7, so 7
does not falsify it, yet shrinking returns 7 unchanged because every
candidate (there are none) satisfies the property. -/
theorem claim_C10_witness :
    propTrue 7 = true ∧ (∀ c ∈ noShrink 7, propTrue c = true)
    ∧ QC.quick_shrink QC.config noShrink propTrue 1 7 = some 7 :=
  ⟨rfl, by simp [noShrink],
   (claim_C10 QC.config noShrink propTrue 0 7).2.1 (by simp [noShrink])⟩
